import Mathlib

/-!
Verification of the fixed-point trigonometry core (sine/cosine lookup,
atan2 estimator, integer square root, planar magnitude).

Shallow embedding conventions:
* a C uint8_t angle is a Nat (callers stay below 256; the C parameter type
  enforces this at the boundary);
* a C int16_t value is an Int; the store conversion int -> int16_t is
  toInt16, which wraps modulo 2^16 into [-32768, 32767] (the behaviour of
  two's-complement targets);
* a C uint16_t value is a Nat with explicit % 65536 at each store;
* the C signed division in atan2 truncates toward zero, so it is Int.tdiv
  (Lean's Int.tdiv x 0 = 0 makes the model total where the C program would
  divide by zero -- that condition is exposed separately via atan2_divisor);
* the arithmetic right shift z >> 2 on a signed int is flooring division,
  Int division / (ediv), and the int -> uint8_t conversions are % 256
  (emod), both matching the target semantics of the source.
-/

/-- Conversion of a mathematical integer to the int16_t that stores it:
wrap modulo 2^16 into [-32768, 32767]. -/
def toInt16 (n : Int) : Int := (n + 32768) % 65536 - 32768

/-- The 64-entry first-quadrant table of the source (its comment says each
value is round(sin(theta) * 256) for 64 steps of theta across [0, 90 deg]). -/
def sine_table : List Int :=
  [0, 6, 13, 19, 25, 31, 38, 44,
   50, 56, 62, 69, 75, 81, 87, 93,
   99, 105, 111, 117, 122, 128, 134, 140,
   145, 151, 157, 162, 168, 173, 179, 184,
   189, 195, 200, 205, 210, 216, 221, 226,
   231, 236, 240, 245, 250, 255, 260, 264,
   269, 273, 278, 282, 286, 290, 294, 298,
   302, 306, 310, 313, 317, 320, 324, 327]

/-- int16_t fixed_sin_q8_8(uint8_t angle): quadrant folding over the table.
The source computes the quadrant as angle >> 6 and the index as angle & 0x3F,
which on the unsigned 8-bit argument are angle / 64 and angle % 64 (the
source's own comments state this equivalence). -/
def fixed_sin_q8_8 (angle : Nat) : Int :=
  let quadrant := angle / 64
  let index := angle % 64
  match quadrant with
  | 0 => sine_table.getD index 0
  | 1 => sine_table.getD (63 - index) 0
  | 2 => -(sine_table.getD index 0)
  | 3 => -(sine_table.getD (63 - index) 0)
  | _ => 0

/-- int16_t fixed_cos_q8_8(uint8_t angle): returns fixed_sin_q8_8(angle + 64);
the uint8_t parameter conversion wraps the sum modulo 256. -/
def fixed_cos_q8_8 (angle : Nat) : Int :=
  fixed_sin_q8_8 ((angle + 64) % 256)

/-- The divisor fixed_atan2_q8_8 selects for its ratio: abs_y when
abs_y > abs_x, else abs_x, where abs_y and abs_x are the int16_t stores of
abs(y) and abs(x). -/
def atan2_divisor (y x : Int) : Int :=
  if toInt16 |x| < toInt16 |y| then toInt16 |y| else toInt16 |x|

/-- The numerator paired with atan2_divisor: the other absolute value. -/
def atan2_numerator (y x : Int) : Int :=
  if toInt16 |x| < toInt16 |y| then toInt16 |x| else toInt16 |y|

/-- The uint8_t base_angle of fixed_atan2_q8_8 after the octant reflection:
z_q8_8 = (min_abs << 8) / max_abs stored in an int16_t, base = z >> 2
converted to uint8_t, and 64 - base (again uint8_t) on the inverted branch. -/
def atan2_base (y x : Int) : Int :=
  let z_q8_8 := toInt16 (Int.tdiv (atan2_numerator y x * 256) (atan2_divisor y x))
  let base0 := (z_q8_8 / 4) % 256
  if toInt16 |x| < toInt16 |y| then (64 - base0) % 256 else base0

/-- uint8_t fixed_atan2_q8_8(int16_t y, int16_t x): the all-zero guard, then
the base angle with quadrant correction from the signs of x and y; each
return converts to uint8_t, i.e. reduces modulo 256. -/
def fixed_atan2_q8_8 (y x : Int) : Int :=
  if x = 0 ∧ y = 0 then 0
  else
    let base_angle := atan2_base y x
    if 0 ≤ x ∧ 0 ≤ y then base_angle
    else if x < 0 ∧ 0 ≤ y then (128 - base_angle) % 256
    else if x < 0 ∧ y < 0 then (128 + base_angle) % 256
    else (256 - base_angle) % 256

/-- The loop of isqrt16: fuel j stands for the current bit 2^(j-1); each step
tentatively sets the bit with res | bit and keeps it when the square of the
tentative value does not exceed x. The squaring happens after integer
promotion, hence exactly (no 16-bit wrap), as in the source. -/
def isqrtAux (x : Nat) : Nat → Nat → Nat
  | res, 0 => res
  | res, j + 1 =>
    let temp := res ||| 2 ^ j
    isqrtAux x (if temp * temp ≤ x then temp else res) j

/-- uint16_t isqrt16(uint16_t x): binary-search square root starting at
bit 1 << 14. -/
def isqrt16 (x : Nat) : Nat := isqrtAux x 0 15

/-- The uint16_t sum a2 + b2 inside pythagoras_q88_16bit: absolute values
(via the ternary on the signed inputs) stored as uint16_t, squared in
uint32_t, shifted right 8, stored as uint16_t, then added and stored as
uint16_t. -/
def pyth_sum (a_q88 b_q88 : Int) : Nat :=
  let a : Nat := (((if a_q88 < 0 then -a_q88 else a_q88) % 65536)).toNat
  let b : Nat := (((if b_q88 < 0 then -b_q88 else b_q88) % 65536)).toNat
  let a2 : Nat := (a * a % 4294967296) / 256 % 65536
  let b2 : Nat := (b * b % 4294967296) / 256 % 65536
  (a2 + b2) % 65536

/-- int16_t pythagoras_q88_16bit(int16_t a_q88, int16_t b_q88): the integer
square root of the summed squares, shifted left by 4 (the source's reduced
resolution rescale) and returned as int16_t. -/
def pythagoras_q88_16bit (a_q88 b_q88 : Int) : Int :=
  toInt16 ((isqrt16 (pyth_sum a_q88 b_q88) : Int) * 16)

set_option maxRecDepth 10000

theorem toInt16_eq_self (n : Int) (h1 : -32768 ≤ n) (h2 : n ≤ 32767) : toInt16 n = n := by
  unfold toInt16
  omega

theorem int_tdiv_natCast (m n : Nat) :
    Int.tdiv ((m : Int) * 256) (n : Int) = ((m * 256 / n : Nat) : Int) := rfl

theorem int_ediv_emod_natCast (k : Nat) :
    ((k : Int) / 4) % 256 = ((k / 4 % 256 : Nat) : Int) := rfl

theorem lor_two_pow_succ_mul (j k : Nat) :
    (2 ^ (j + 1) * k) ||| 2 ^ j = 2 ^ (j + 1) * k + 2 ^ j := by
  have h1 : 2 ^ (j + 1) * k = (2 * k) <<< j := by
    rw [Nat.shiftLeft_eq]; ring
  have h3 : 2 ^ (j + 1) * k + 2 ^ j = (2 * k + 1) <<< j := by
    rw [Nat.shiftLeft_eq]; ring
  rw [h3, h1]
  have h2 : (2 : Nat) ^ j = 1 <<< j := by
    rw [Nat.shiftLeft_eq]; ring
  rw [h2]
  apply Nat.eq_of_testBit_eq
  intro i
  rw [Nat.testBit_lor, Nat.testBit_shiftLeft, Nat.testBit_shiftLeft, Nat.testBit_shiftLeft]
  by_cases h : j ≤ i
  · simp only [ge_iff_le, h, decide_True, Bool.true_and]
    generalize i - j = t
    match t with
    | 0 =>
      have e1 : 2 * k % 2 = 0 := by omega
      have e2 : (2 * k + 1) % 2 = 1 := by omega
      simp [Nat.testBit_zero, e1, e2]
    | t + 1 =>
      rw [Nat.testBit_succ, Nat.testBit_succ, Nat.testBit_succ]
      have e1 : 2 * k / 2 = k := by omega
      have e2 : (2 * k + 1) / 2 = k := by omega
      have e3 : (1 : Nat) / 2 = 0 := by omega
      simp [e1, e2, e3]
  · simp [h]

theorem isqrtAux_eq_sqrt (x : Nat) : ∀ j, isqrtAux x (2 ^ j * (Nat.sqrt x / 2 ^ j)) j = Nat.sqrt x := by
  intro j
  induction j with
  | zero => simp [isqrtAux]
  | succ j ih =>
    have hpos : 0 < 2 ^ j := Nat.pos_pow_of_pos j (by omega)
    simp only [isqrtAux]
    rw [lor_two_pow_succ_mul]
    have hqr : Nat.sqrt x / 2 ^ (j + 1) = (Nat.sqrt x / 2 ^ j) / 2 := by
      rw [Nat.div_div_eq_div_mul, pow_succ]
    set m := Nat.sqrt x with hm
    set r := m / 2 ^ j with hr
    set q := m / 2 ^ (j + 1) with hq
    have hcond : (2 ^ (j + 1) * q + 2 ^ j) * (2 ^ (j + 1) * q + 2 ^ j) ≤ x ↔
        2 * q + 1 ≤ r := by
      constructor
      · intro h
        have h2 : 2 ^ (j + 1) * q + 2 ^ j ≤ m := Nat.le_sqrt.mpr h
        rw [hr]
        rw [Nat.le_div_iff_mul_le hpos]
        calc (2 * q + 1) * 2 ^ j = 2 ^ (j + 1) * q + 2 ^ j := by ring
          _ ≤ m := h2
      · intro h
        apply Nat.le_sqrt.mp
        rw [← hm]
        have h2 : (2 * q + 1) * 2 ^ j ≤ m := by
          rw [hr] at h
          exact (Nat.le_div_iff_mul_le hpos).mp h
        calc 2 ^ (j + 1) * q + 2 ^ j = (2 * q + 1) * 2 ^ j := by ring
          _ ≤ m := h2
    rcases Nat.mod_two_eq_zero_or_one r with hpar | hpar
    · have hno : ¬ ((2 ^ (j + 1) * q + 2 ^ j) * (2 ^ (j + 1) * q + 2 ^ j) ≤ x) := by
        rw [hcond]
        omega
      rw [if_neg hno]
      have harg : 2 ^ (j + 1) * q = 2 ^ j * r := by
        have h2 : 2 * q = r := by omega
        calc 2 ^ (j + 1) * q = 2 ^ j * (2 * q) := by ring
          _ = 2 ^ j * r := by rw [h2]
      rw [harg]
      exact ih
    · have hyes : (2 ^ (j + 1) * q + 2 ^ j) * (2 ^ (j + 1) * q + 2 ^ j) ≤ x := by
        rw [hcond]; omega
      rw [if_pos hyes]
      have harg : 2 ^ (j + 1) * q + 2 ^ j = 2 ^ j * r := by
        have h2 : 2 * q + 1 = r := by omega
        calc 2 ^ (j + 1) * q + 2 ^ j = 2 ^ j * (2 * q + 1) := by ring
          _ = 2 ^ j * r := by rw [h2]
      rw [harg]
      exact ih

theorem isqrt16_eq_sqrt (x : Nat) (hx : x < 65536) : isqrt16 x = Nat.sqrt x := by
  have hm : Nat.sqrt x < 2 ^ 15 := by
    have h256 : Nat.sqrt x < 256 := by
      rw [Nat.sqrt_lt]
      omega
    omega
  have h := isqrtAux_eq_sqrt x 15
  rwa [Nat.div_eq_of_lt hm, Nat.mul_zero] at h

theorem atan2_base_bounds (y x : Int) (hy0 : y ≠ 0) (hx0 : x ≠ 0)
    (hy2 : |y| ≤ 32767) (hx2 : |x| ≤ 32767) :
    0 ≤ atan2_base y x ∧ atan2_base y x ≤ 64 := by
  have hy1 : 1 ≤ |y| := Int.one_le_abs hy0
  have hx1 : 1 ≤ |x| := Int.one_le_abs hx0
  obtain ⟨m, hmx⟩ : ∃ m : Nat, |x| = (m : Int) := ⟨x.natAbs, Int.abs_eq_natAbs x⟩
  obtain ⟨n, hny⟩ : ∃ n : Nat, |y| = (n : Int) := ⟨y.natAbs, Int.abs_eq_natAbs y⟩
  have hm1 : 1 ≤ m := by omega
  have hn1 : 1 ≤ n := by omega
  have hm2 : m ≤ 32767 := by omega
  have hn2 : n ≤ 32767 := by omega
  have htm : toInt16 (m : Int) = (m : Int) := toInt16_eq_self _ (by omega) (by omega)
  have htn : toInt16 (n : Int) = (n : Int) := toInt16_eq_self _ (by omega) (by omega)
  simp only [atan2_base, atan2_numerator, atan2_divisor, hmx, hny]
  rw [htm, htn]
  by_cases hc : (m : Int) < (n : Int)
  · have hmn : m < n := by exact_mod_cast hc
    rw [if_pos hc, if_pos hc, if_pos hc, int_tdiv_natCast]
    obtain ⟨k, hkeq⟩ : ∃ k, m * 256 / n = k := ⟨_, rfl⟩
    have hk : k ≤ 255 := by
      have h1 : k < 256 := by
        rw [← hkeq, Nat.div_lt_iff_lt_mul (show 0 < n by omega)]
        omega
      omega
    rw [hkeq]
    clear hkeq
    rw [toInt16_eq_self ((k : Nat) : Int) (by omega) (by omega), int_ediv_emod_natCast]
    omega
  · have hnm : n ≤ m := by omega
    rw [if_neg hc, if_neg hc, if_neg hc, int_tdiv_natCast]
    obtain ⟨k, hkeq⟩ : ∃ k, n * 256 / m = k := ⟨_, rfl⟩
    have hk : k ≤ 256 := by
      rw [← hkeq]
      calc n * 256 / m ≤ m * 256 / m := Nat.div_le_div_right (by omega)
        _ = 256 := Nat.mul_div_cancel_left 256 (show 0 < m by omega)
    rw [hkeq]
    clear hkeq
    rw [toInt16_eq_self ((k : Nat) : Int) (by omega) (by omega), int_ediv_emod_natCast]
    omega

theorem pyth_sum_lt (a b : Int) : pyth_sum a b < 65536 := by
  unfold pyth_sum
  exact Nat.mod_lt _ (by omega)

/-- C1: the sine evaluator's anchor values as the code actually computes
them: fixed_sin_q8_8 0 = 0 holds, but fixed_sin_q8_8 64 = 327 (not 256, the
Q8.8 encoding of the claimed maximum 1.0) and fixed_sin_q8_8 192 = -327
(not -256): the table's last entry is 327, which no value of sine scaled by
256 can reach. -/
theorem fixed_sin_anchor_values :
    fixed_sin_q8_8 0 = 0 ∧ fixed_sin_q8_8 64 = 327 ∧ fixed_sin_q8_8 192 = -327 := by
  decide

/-- C2: entry 63 of sine_table is 327, while the quantized sine the spec
(and the comment above the table) prescribe for entry 63 is
round(sin(63 * 90 deg / 64) * 256) = round(256 * cos(pi/128)) = 256. -/
theorem sine_table_entry63_mismatch :
    sine_table.getD 63 0 = 327 ∧
    round ((256 : ℝ) * Real.sin ((63 : ℝ) * (Real.pi / 2) / 64)) = 256 := by
  constructor
  · decide
  · have harg : (63 : ℝ) * (Real.pi / 2) / 64 = Real.pi / 2 - Real.pi / 128 := by ring
    rw [harg, Real.sin_pi_div_two_sub]
    have hπu : Real.pi < 3.15 := Real.pi_lt_d2
    have hπl : 3 < Real.pi := Real.pi_gt_three
    have hcos_le : Real.cos (Real.pi / 128) ≤ 1 := Real.cos_le_one _
    have hcos_ge : 1 - (Real.pi / 128) ^ 2 / 2 ≤ Real.cos (Real.pi / 128) :=
      Real.one_sub_sq_div_two_le_cos
    have hsq : (Real.pi / 128) ^ 2 ≤ 0.001 := by nlinarith
    rw [round_eq]
    have h1 : (256 : ℝ) ≤ 256 * Real.cos (Real.pi / 128) + 1 / 2 := by nlinarith
    have h2 : 256 * Real.cos (Real.pi / 128) + 1 / 2 < 257 := by nlinarith
    rw [Int.floor_eq_iff]
    constructor
    · push_cast
      exact h1
    · push_cast
      linarith [h2]

/-- C3: the divisor fixed_atan2_q8_8 selects is zero at (y, x) = (-32768, 0)
and at (y, x) = (0, -32768), although neither input pair is the all-zero
pair that the guard catches: abs(-32768) stored into an int16_t wraps back
to -32768, defeating the larger-absolute-value selection, and the code then
divides by zero. -/
theorem atan2_divisor_zero_at_int16_min :
    atan2_divisor (-32768) 0 = 0 ∧ ¬((0 : Int) = 0 ∧ (-32768 : Int) = 0) ∧
    atan2_divisor 0 (-32768) = 0 ∧ ¬((-32768 : Int) = 0 ∧ (0 : Int) = 0) := by
  decide

/-- C4 counterexample: fixed_atan2_q8_8 1 1 = 64, outside the claimed
half-open first-quadrant range [0, 64); and fixed_atan2_q8_8 (-32768) 5
= 103, far outside the claimed fourth-quadrant range [192, 256). -/
theorem atan2_quadrant_range_counterexample :
    fixed_atan2_q8_8 1 1 = 64 ∧ fixed_atan2_q8_8 (-32768) 5 = 103 := by
  decide

/-- C4 (amended): for nonzero int16 coordinates other than -32768, the
result lands in the closed range of the point's quadrant: [0, 64] for
x>0, y>0; [64, 128] for x<0, y>0; [128, 192] for x<0, y<0; and for x>0,
y<0 either [192, 255] or exactly 0 (the upper endpoint 256 wrapped
modulo 256). -/
theorem atan2_quadrant_ranges_amended (y x : Int)
    (hyl : -32768 < y) (hyu : y ≤ 32767) (hxl : -32768 < x) (hxu : x ≤ 32767)
    (hy0 : y ≠ 0) (hx0 : x ≠ 0) :
    (0 < x → 0 < y → 0 ≤ fixed_atan2_q8_8 y x ∧ fixed_atan2_q8_8 y x ≤ 64) ∧
    (x < 0 → 0 < y → 64 ≤ fixed_atan2_q8_8 y x ∧ fixed_atan2_q8_8 y x ≤ 128) ∧
    (x < 0 → y < 0 → 128 ≤ fixed_atan2_q8_8 y x ∧ fixed_atan2_q8_8 y x ≤ 192) ∧
    (0 < x → y < 0 →
      fixed_atan2_q8_8 y x = 0 ∨ (192 ≤ fixed_atan2_q8_8 y x ∧ fixed_atan2_q8_8 y x ≤ 255)) := by
  obtain ⟨hb0, hb64⟩ := atan2_base_bounds y x hy0 hx0 (by rw [abs_le]; omega) (by rw [abs_le]; omega)
  simp only [fixed_atan2_q8_8]
  rw [if_neg (by omega : ¬(x = 0 ∧ y = 0))]
  refine ⟨?_, ?_, ?_, ?_⟩
  · intro hx hy
    rw [if_pos (by omega : 0 ≤ x ∧ 0 ≤ y)]
    omega
  · intro hx hy
    rw [if_neg (by omega : ¬(0 ≤ x ∧ 0 ≤ y)), if_pos (by omega : x < 0 ∧ 0 ≤ y)]
    omega
  · intro hx hy
    rw [if_neg (by omega : ¬(0 ≤ x ∧ 0 ≤ y)), if_neg (by omega : ¬(x < 0 ∧ 0 ≤ y)),
      if_pos (by omega : x < 0 ∧ y < 0)]
    omega
  · intro hx hy
    rw [if_neg (by omega : ¬(0 ≤ x ∧ 0 ≤ y)), if_neg (by omega : ¬(x < 0 ∧ 0 ≤ y)),
      if_neg (by omega : ¬(x < 0 ∧ y < 0))]
    omega

/-- C4 witness: the amended statement applied at (y, x) = (3, -5), a
second-quadrant point. -/
theorem atan2_quadrant_ranges_amended_witness :
    64 ≤ fixed_atan2_q8_8 3 (-5) ∧ fixed_atan2_q8_8 3 (-5) ≤ 128 :=
  (atan2_quadrant_ranges_amended 3 (-5) (by decide) (by decide) (by decide) (by decide)
    (by decide) (by decide)).2.1 (by decide) (by decide)

/-- C5: for every 8-bit angle, fixed_cos_q8_8 a equals fixed_sin_q8_8 of
(a + 64) mod 256, and the quarter-turn addition wraps exactly: for
a >= 192 the argument is a + 64 - 256, otherwise it is a + 64. -/
theorem fixed_cos_is_shifted_sin :
    ∀ a : Nat, a < 256 →
      fixed_cos_q8_8 a = fixed_sin_q8_8 ((a + 64) % 256) ∧
      (192 ≤ a → (a + 64) % 256 = a + 64 - 256) ∧
      (a < 192 → (a + 64) % 256 = a + 64) := by
  intro a ha
  exact ⟨rfl, fun h => by omega, fun h => by omega⟩

/-- C5 witness: the phase-shift identity applied at a = 200, an angle whose
8-bit addition overflows and wraps to 8. -/
theorem fixed_cos_is_shifted_sin_witness :
    fixed_cos_q8_8 200 = fixed_sin_q8_8 ((200 + 64) % 256) ∧
    (192 ≤ 200 → (200 + 64) % 256 = 200 + 64 - 256) ∧
    (200 < 192 → (200 + 64) % 256 = 200 + 64) :=
  fixed_cos_is_shifted_sin 200 (by decide)

/-- C6: isqrt16 is the exact floor square root on the full uint16 domain:
its square never exceeds the input, the next square exceeds it, and the
anchors isqrt16 0 = 0 and isqrt16 65535 = 255 hold. -/
theorem isqrt16_exact :
    (∀ x : Nat, x < 65536 → isqrt16 x ^ 2 ≤ x ∧ x < (isqrt16 x + 1) ^ 2) ∧
    isqrt16 0 = 0 ∧ isqrt16 65535 = 255 := by
  refine ⟨fun x hx => ?_, by decide, by decide⟩
  rw [isqrt16_eq_sqrt x hx]
  exact ⟨Nat.sqrt_le' x, Nat.lt_succ_sqrt' x⟩

/-- C6 witness: the floor-square-root bracketing applied at x = 12345. -/
theorem isqrt16_exact_witness :
    isqrt16 12345 ^ 2 ≤ 12345 ∧ 12345 < (isqrt16 12345 + 1) ^ 2 :=
  isqrt16_exact.1 12345 (by decide)

/-- C7: at angle 64 the squared norm of (sin, cos) is 327^2 + 0^2 = 106929,
which misses 65536 by 41393 -- not within a small fixed tolerance of a few
units, because the table's corrupt upper entries break the identity. -/
theorem sin_cos_square_sum_at_64 :
    fixed_sin_q8_8 64 ^ 2 + fixed_cos_q8_8 64 ^ 2 = 106929 := by
  decide

/-- C8: on the scaled 3-4-5 triple the magnitude helper is exact:
pythagoras_q88_16bit 768 1024 = 1280 = 5 * 256, the Q8.8 encoding of 5.0
(the shift-by-4 rescale of the Q8.0 root 80 of 6400). -/
theorem pythagoras_345_exact : pythagoras_q88_16bit 768 1024 = 1280 := by
  decide

/-- C9: the quadrant-folded sine is mirror symmetric about the quarter
turn: fixed_sin_q8_8 a = fixed_sin_q8_8 ((127 - a) mod 256) for every
8-bit angle a. -/
theorem fixed_sin_mirror_symmetry :
    ∀ a : Nat, a < 256 →
      fixed_sin_q8_8 a = fixed_sin_q8_8 (Int.toNat ((127 - (a : Int)) % 256)) := by
  decide

/-- C9 witness: the mirror symmetry applied at a = 200 (reflected
angle 183). -/
theorem fixed_sin_mirror_symmetry_witness :
    fixed_sin_q8_8 200 = fixed_sin_q8_8 (Int.toNat ((127 - ((200 : Nat) : Int)) % 256)) :=
  fixed_sin_mirror_symmetry 200 (by decide)

/-- C10: for all int16 inputs the magnitude helper returns a nonnegative
multiple of 16 bounded by 4080 = 255 << 4: the uint16 sum of squares keeps
the integer square root at most 255, and the shift-by-4 rescale cannot
wrap the int16 return value. -/
theorem pythagoras_result_range (a b : Int)
    (ha1 : -32768 ≤ a) (ha2 : a ≤ 32767) (hb1 : -32768 ≤ b) (hb2 : b ≤ 32767) :
    0 ≤ pythagoras_q88_16bit a b ∧ pythagoras_q88_16bit a b ≤ 4080 ∧
    (16 : Int) ∣ pythagoras_q88_16bit a b := by
  have hlt := pyth_sum_lt a b
  have hs : isqrt16 (pyth_sum a b) ≤ 255 := by
    rw [isqrt16_eq_sqrt _ hlt]
    have h1 : Nat.sqrt (pyth_sum a b) < 256 := by
      rw [Nat.sqrt_lt]
      omega
    omega
  unfold pythagoras_q88_16bit
  obtain ⟨s, hseq⟩ : ∃ s, isqrt16 (pyth_sum a b) = s := ⟨_, rfl⟩
  rw [hseq]
  rw [hseq] at hs
  rw [toInt16_eq_self ((s : Int) * 16) (by omega) (by omega)]
  exact ⟨by omega, by omega, ⟨(s : Int), by ring⟩⟩

/-- C10 witness: the range facts applied at the extreme input pair
(a, b) = (-32768, 32767), where the result is the maximum 4080. -/
theorem pythagoras_result_range_witness :
    0 ≤ pythagoras_q88_16bit (-32768) 32767 ∧ pythagoras_q88_16bit (-32768) 32767 ≤ 4080 ∧
    (16 : Int) ∣ pythagoras_q88_16bit (-32768) 32767 :=
  pythagoras_result_range (-32768) 32767 (by decide) (by decide) (by decide) (by decide)
